import Mathlib

/-!
Shallow embedding of the progression core of the IoT learning lab
(`src/client/src/pages/iot-learning.tsx`, first revision in the file):
the evaluator (`evaluate`, lines 652-699), the mastery calculator
(the `mastery` useMemo, lines 2011-2036), the progression selector
(`chooseNextIndex`, lines 2039-2084), the completion effect
(lines 2086-2104) and the session handlers `handleHint`, `handleSubmit`,
`handleRetry`, `handleNext` (lines 2133-2261).

JavaScript dynamic values are embedded as follows: a possibly-absent field
is an `Option`; a JS object used as a string map is an association list
with first-occurrence lookup; a detector predicate that may throw is a
function into `Except Unit Bool`; machine numbers are `Nat`/`Int`/`Rat`.
React state updates inside one handler are modelled as sequential record
updates; a closure that reads component state captured at render time
(the `chooseNextIndex` call inside `handleSubmit`) reads the pre-handler
state, as in the source.
-/

namespace IoTLab

/-- JS-object lookup for a string-valued map (first occurrence wins;
JS object keys are unique, so association lists are used directly). -/
def jsGet (o : List (String × String)) (k : String) : Option String :=
  (o.find? (fun p => p.1 == k)).map (fun p => p.2)

/-- JS-object lookup for an array-valued map (`Record<string, string[]>`). -/
def jsGetArr (o : List (String × List String)) (k : String) : Option (List String) :=
  (o.find? (fun p => p.1 == k)).map (fun p => p.2)

/-- `Object.keys` of a JS object modelled as an association list. -/
def jsKeys (o : List (String × String)) : List String :=
  (o.map (fun p => p.1)).dedup

/-- A learner response (`response: any`): each mechanic's field is optional,
mirroring the dynamically-shaped objects the mechanic components submit. -/
structure Response where
  choice : Option String := none
  rationale : Option String := none
  order : Option (List String) := none
  pairs : Option (List (String × String)) := none
  bins : Option (List (String × List String)) := none
  forceNext : Bool := false
deriving DecidableEq, Repr

/-- A misconception detector: `detector` may be absent (`m.detector?.`),
and a present detector may throw, hence `Except Unit Bool`. -/
structure Misconception where
  id : String
  detector : Option (Response → Except Unit Bool) := none

/-- `item.answer_key`. In TS the single field `correct` is overloaded per
mechanic (string for decision, string map for match, string-list map for
triage); the variants are split into separate optional fields here. -/
structure AnswerKey where
  correct : Option String := none
  correctOrder : Option (List String) := none
  correctMap : Option (List (String × String)) := none
  correctBins : Option (List (String × List String)) := none

/-- A learning item (the fields `evaluate` and the handlers read). -/
structure Item where
  id : String
  objective_id : String := ""
  mechanic : String := ""
  response_type : String
  answer_key : AnswerKey
  misconceptions : Option (List Misconception) := none
  hint_ladder : List String := []

/-- `arraysEqual` (line 472): both values must be arrays of equal length
with equal elements at equal positions. -/
def arraysEqual (a b : Option (List String)) : Bool :=
  match a, b with
  | some xs, some ys => xs == ys
  | _, _ => false

/-- Result record of `evaluate`. -/
structure EvalResult where
  correct : Bool
  misconception_id : Option String := none
deriving DecidableEq, Repr

/-- The detector call in the decision+rationale branch (lines 656-662):
wrapped in try/catch, a throwing or absent detector yields `false`. -/
def runDetectorCaught (r : Response) (m : Misconception) : Bool :=
  match m.detector with
  | some d => match d r with
    | .ok b => b
    | .error _ => false
  | none => false

/-- `misconceptions.find((m) => m.detector?.(response))` in the
order/match/triage branches: no try/catch, so the first detector that
throws propagates its exception; an absent detector is skipped. -/
def findDetector (r : Response) : List Misconception → Except Unit (Option Misconception)
  | [] => .ok none
  | m :: ms =>
    match m.detector with
    | none => findDetector r ms
    | some d =>
      match d r with
      | .error e => .error e
      | .ok true => .ok (some m)
      | .ok false => findDetector r ms

/-- `!correct && item.misconceptions?.find(...)` followed by
`mis && typeof mis === 'object' ? mis.id : undefined`
(shared shape of the order/match/triage branches). -/
def scanUncaught (item : Item) (r : Response) (correct : Bool) :
    Except Unit (Option String) :=
  if correct then .ok none
  else
    match item.misconceptions with
    | none => .ok none
    | some ms => (findDetector r ms).map (fun o => o.map (fun m => m.id))

/-- Set equality used by the triage branch (lines 686-692): the source
builds `new Set(arr.slice().sort())` for each side and compares sizes and
membership; sorting affects only iteration order, so the distinct-element
count and membership test are compared directly. -/
def setEqIgnoringOrder (xs ys : List String) : Bool :=
  xs.dedup.length == ys.dedup.length && xs.dedup.all (fun v => ys.dedup.contains v)

/-- `evaluate` (lines 652-699). The decision+rationale branch catches
detector exceptions; the order/match/triage branches do not, so `evaluate`
as a whole may throw (hence the `Except`). -/
def evaluate (item : Item) (r : Response) : Except Unit EvalResult :=
  if item.response_type = "decision+rationale" then
    let correct : Bool := r.choice == item.answer_key.correct
    if !correct && item.misconceptions.isSome then
      let mis := (item.misconceptions.getD []).find? (runDetectorCaught r)
      .ok { correct := correct, misconception_id := mis.map (fun m => m.id) }
    else
      .ok { correct := correct }
  else if item.response_type = "order" then
    let correct := arraysEqual r.order item.answer_key.correctOrder
    (scanUncaught item r correct).map (fun mid => { correct := correct, misconception_id := mid })
  else if item.response_type = "match" then
    let expected := item.answer_key.correctMap.getD []
    let pairs := r.pairs.getD []
    let keys := jsKeys expected
    let correct := keys.all (fun k => jsGet expected k == jsGet pairs k)
      && keys.length == (jsKeys pairs).length
    (scanUncaught item r correct).map (fun mid => { correct := correct, misconception_id := mid })
  else if item.response_type = "triage" then
    let exp := item.answer_key.correctBins.getD []
    let bins := r.bins.getD []
    let isCorr := fun (binId : String) =>
      setEqIgnoringOrder ((jsGetArr bins binId).getD []) ((jsGetArr exp binId).getD [])
    let correct := isCorr "vulnerability" && isCorr "mitigation"
    (scanUncaught item r correct).map (fun mid => { correct := correct, misconception_id := mid })
  else
    .ok { correct := false }

/-- One evaluated submission (`HistoryEntry`, line 88). -/
structure HistoryEntry where
  item_id : String
  correct : Bool
  latency_ms : Nat
  hints_used : Nat
  misconception_id : Option String := none
  retries : Nat := 0
deriving DecidableEq, Repr

/-- `msToS` (line 461): `Math.round(ms / 100) / 10`. -/
def msToS (ms : ℚ) : ℚ := (round (ms / 100) : ℚ) / 10

/-- The fixed mastery configuration `content.metadata.mastery`
(line 115: `{ streak: 3, max_avg_time_ms: 30000, max_hints: 1 }`). -/
structure MasteryConfig where
  streak : Nat
  max_avg_time_ms : ℚ
  max_hints : Nat

def masteryConfig : MasteryConfig :=
  { streak := 3, max_avg_time_ms := 30000, max_hints := 1 }

/-- Result of the `mastery` useMemo. -/
structure MasteryStats where
  streak : Nat
  avgTimeS : ℚ
  hints : Nat
  masteryMet : Bool
deriving DecidableEq, Repr

/-- The backwards streak loop (lines 2017-2021), run on the reversed
history: count leading corrects, stop at the first incorrect. -/
def streakAux : List HistoryEntry → Nat
  | [] => 0
  | e :: rest => if e.correct then streakAux rest + 1 else 0

/-- The `mastery` useMemo (lines 2011-2036). -/
def computeMastery (history : List HistoryEntry) : MasteryStats :=
  if history.length = 0 then
    { streak := 0, avgTimeS := 0, hints := 0, masteryMet := false }
  else
    let streak := streakAux history.reverse
    let totalTime : ℚ := (history.map (fun h => (h.latency_ms : ℚ))).sum
    let avgTimeMs : ℚ := totalTime / history.length
    let avgTimeS := msToS avgTimeMs
    let hints := (history.map (fun h => h.hints_used)).sum
    let masteryMet := decide (masteryConfig.streak ≤ streak)
      && decide (avgTimeMs ≤ masteryConfig.max_avg_time_ms)
      && decide (hints ≤ masteryConfig.max_hints)
    { streak := streak, avgTimeS := avgTimeS, hints := hints, masteryMet := masteryMet }

/-- `content.items[idx].id` for an index produced by the selector. -/
def itemIdAt (items : List Item) (i : Nat) : String :=
  ((items.get? i).map (fun it => it.id)).getD ""

/-- `history.slice(-3).map((h) => h.item_id)` (line 2049). -/
def recentIds (history : List HistoryEntry) : List String :=
  (history.drop (history.length - 3)).map (fun h => h.item_id)

/-- The remediation candidate set (lines 2053-2061): the incorrect items,
minus those whose id appears in the last 3 history entries, unless that
filter would empty the set. -/
def remediationCandidates (items : List Item) (incorrectItems : List Nat)
    (history : List HistoryEntry) : List Nat :=
  let candidatesFiltered := incorrectItems.filter
    (fun idx => !((recentIds history).contains (itemIdAt items idx)))
  if candidatesFiltered.length > 0 then candidatesFiltered else incorrectItems

/-- `chooseNextIndex` (lines 2039-2084). The JS `Set` of incorrect items is
its insertion-order element list; `Math.floor(Math.random() * len)` is the
extra argument `rng`, reduced mod the candidate count; `lastCorrect` is
unused in the body, as in the source. JS stable ascending sort followed by
`[0]` is `insertionSort` followed by `head?`. The result is an `Option`:
every reachable branch returns `some`; `none` occurs only for the invalid
empty-bank input (where the JS expression is `undefined`). -/
def chooseNextIndex (items : List Item) (seenCounts : List Nat)
    (incorrectItems : List Nat) (history : List HistoryEntry)
    (rng : Nat) (lastCorrect : Bool) : Option Nat :=
  let allSeen := seenCounts.all (fun c => c > 0)
  if !allSeen then
    -- Sequential phase: next unseen item (`nextIdx >= 0 ? nextIdx : 0`)
    some ((seenCounts.findIdx? (fun c => c == 0)).getD 0)
  else if incorrectItems.length > 0 then
    -- Adaptive phase: least-seen incorrect item, avoiding recent ones
    let candidates := remediationCandidates items incorrectItems history
    (List.insertionSort
      (fun a b => seenCounts.getD a 0 ≤ seenCounts.getD b 0) candidates).head?
  else
    -- All items correct at least once: least-seen, avoiding recent ones
    let minCount := (seenCounts.min?).getD 0
    let candidates₀ := (seenCounts.enum.filter
      (fun x => x.2 == minCount
        && !((recentIds history).contains (itemIdAt items x.1)))).map (fun x => x.1)
    let candidates :=
      if candidates₀.length = 0 then
        (seenCounts.enum.filter (fun x => x.2 == minCount)).map (fun x => x.1)
      else candidates₀
    candidates.get? (rng % candidates.length)

/-- `feedbackState` (line 81). -/
structure FeedbackState where
  correct : Bool
  misconception_id : Option String := none
  latency_ms : Nat
  hints_used : Nat
deriving DecidableEq, Repr

/-- Telemetry events emitted by the handlers (`recordEvent` calls),
reduced to the fields the claims mention. -/
inductive TEvent where
  | attempt (item_id : String) (correct : Bool) (misconception_id : Option String)
  | hint_shown (item_id : String) (hint_index : Int) (hint_text : Option String)
deriving DecidableEq, Repr

/-- The mutable session state of `IoTLearningLab` (lines 1947-1962),
restricted to the fields the claims concern. `presented` is ghost
instrumentation: the indices that have become current, in order; it is
extended exactly when `currentIndex` changes. `sessionCompleted` is set
only by the completion effect, which is outside the handlers. -/
structure SessionState where
  currentIndex : Nat
  showFeedback : Bool
  feedbackState : Option FeedbackState
  hintIdx : Int
  startMs : Nat
  currentItemMastered : Bool
  currentItemRetries : Nat
  history : List HistoryEntry
  seenCounts : List Nat
  incorrectItems : List Nat
  sessionCompleted : Bool
  telemetry : List TEvent
  presented : List Nat
deriving DecidableEq, Repr

/-- The condition of the completion effect (lines 2086-2104): mastery met,
every item seen, session not already completed, nonempty history. -/
def completionTriggered (s : SessionState) : Bool :=
  (computeMastery s.history).masteryMet
    && s.seenCounts.all (fun c => c > 0)
    && !s.sessionCompleted
    && s.history.length > 0

/-- Default item for the (range-guarded) JS access `content.items[i]`. -/
def defaultItem : Item :=
  { id := "", response_type := "", answer_key := {} }

/-- `content.items[currentIndex]` (line 1968). -/
def itemAt (items : List Item) (i : Nat) : Item :=
  (items.get? i).getD defaultItem

/-- `Set.add`: appends if absent (JS sets keep insertion order). -/
def setAdd (s : List Nat) (x : Nat) : List Nat :=
  if s.contains x then s else s ++ [x]

/-- `Set.delete`. -/
def setDelete (s : List Nat) (x : Nat) : List Nat := s.erase x

/-- `setCurrentIndex j` plus the ghost `presented` bookkeeping: when the
index actually changes, record the newly presented index. -/
def presentAt (s : SessionState) (j : Nat) : SessionState :=
  if j = s.currentIndex then s
  else { s with currentIndex := j, presented := s.presented ++ [j] }

/-- `handleHint` (lines 2133-2142): unconditional increment, telemetry
records the (possibly out-of-range) hint text. -/
def handleHint (items : List Item) (s : SessionState) : SessionState :=
  let item := itemAt items s.currentIndex
  let nextHintIdx := s.hintIdx + 1
  { s with hintIdx := nextHintIdx,
           telemetry := s.telemetry
             ++ [.hint_shown item.id nextHintIdx (item.hint_ladder.get? nextHintIdx.toNat)] }

/-- `handleSubmit` (lines 2144-2235). The guard rejects a response only
when all four mechanic fields are absent. If `evaluate` throws (a
detector exception in a non-decision branch), the handler aborts before
any state update, so the state is returned unchanged. The
`chooseNextIndex` call in the forceNext branch reads the render-time
(pre-handler) `seenCounts`/`incorrectItems`/`history`, because in the
source it is a closure over component state that `setX` calls do not
update within the handler. -/
def handleSubmit (items : List Item) (s : SessionState) (r : Response)
    (nowMs rng : Nat) : SessionState :=
  if r.choice == none && r.order == none && r.pairs == none && r.bins == none then
    s  -- Guard against empty submissions
  else
    let item := itemAt items s.currentIndex
    let forceNext := r.forceNext
    -- Reset mastery state when starting new item
    let mastered₀ := if !forceNext && s.currentItemRetries == 0 then false
                     else s.currentItemMastered
    let latency_ms := nowMs - s.startMs
    match evaluate item r with
    | .error _ => s
    | .ok result =>
      let hints_used := (s.hintIdx + 1).toNat
      let telemetry := s.telemetry ++ [.attempt item.id result.correct result.misconception_id]
      let entry : HistoryEntry :=
        { item_id := item.id, correct := result.correct, latency_ms := latency_ms,
          hints_used := hints_used, misconception_id := result.misconception_id,
          retries := s.currentItemRetries }
      let history := s.history ++ [entry]
      let retries := if !result.correct then s.currentItemRetries + 1 else s.currentItemRetries
      let seenCounts := s.seenCounts.set s.currentIndex (s.seenCounts.getD s.currentIndex 0 + 1)
      let incorrectItems := if !result.correct then setAdd s.incorrectItems s.currentIndex
                            else setDelete s.incorrectItems s.currentIndex
      let mastered₁ := if result.correct then true else mastered₀
      let s₁ := { s with history := history, seenCounts := seenCounts,
                         incorrectItems := incorrectItems, telemetry := telemetry,
                         currentItemMastered := mastered₁, currentItemRetries := retries }
      if forceNext then
        match chooseNextIndex items s.seenCounts s.incorrectItems s.history rng result.correct with
        | none => { s₁ with currentItemMastered := true }  -- empty bank only
        | some nextIdx =>
          presentAt { s₁ with currentItemMastered := true, showFeedback := false,
                              feedbackState := none, hintIdx := -1, startMs := nowMs,
                              currentItemRetries := 0 } nextIdx
      else
        { s₁ with showFeedback := true,
                  feedbackState := some { correct := result.correct,
                                          misconception_id := result.misconception_id,
                                          latency_ms := latency_ms,
                                          hints_used := hints_used } }

/-- `handleRetry` (lines 2237-2243): resets only the feedback view, the
hint index and the start timestamp. -/
def handleRetry (s : SessionState) (nowMs : Nat) : SessionState :=
  { s with showFeedback := false, feedbackState := none, hintIdx := -1, startMs := nowMs }

/-- `handleNext` (lines 2245-2261): guarded by `currentItemMastered`. -/
def handleNext (items : List Item) (s : SessionState) (nowMs rng : Nat) : SessionState :=
  if !s.currentItemMastered then
    s  -- Cannot advance: current item not mastered (retry-until-correct)
  else
    match chooseNextIndex items s.seenCounts s.incorrectItems s.history rng
        (((s.feedbackState).map (fun f => f.correct)).getD false) with
    | none => s  -- empty bank only
    | some nextIdx =>
      presentAt { s with showFeedback := false, feedbackState := none, hintIdx := -1,
                         startMs := nowMs, currentItemMastered := false,
                         currentItemRetries := 0 } nextIdx

/-- External events driving the session state machine. `nowMs` is the
wall clock observed by the handler, `rng` the random draw consumed by
`chooseNextIndex`. -/
inductive Event where
  | submit (r : Response) (nowMs : Nat) (rng : Nat)
  | retry (nowMs : Nat)
  | next (nowMs : Nat) (rng : Nat)
  | hint

/-- One handler invocation. -/
def step (items : List Item) (s : SessionState) : Event → SessionState
  | .submit r nowMs rng => handleSubmit items s r nowMs rng
  | .retry nowMs => handleRetry s nowMs
  | .next nowMs rng => handleNext items s nowMs rng
  | .hint => handleHint items s

/-- The state right after `handleStart`: the initial `useState` values
with item 0 current (and hence presented). -/
def initState (items : List Item) (startMs : Nat) : SessionState :=
  { currentIndex := 0, showFeedback := false, feedbackState := none, hintIdx := -1,
    startMs := startMs, currentItemMastered := false, currentItemRetries := 0,
    history := [], seenCounts := items.map (fun _ => 0), incorrectItems := [],
    sessionCompleted := false, telemetry := [], presented := [0] }

/-- Run a list of events from the initial state. -/
def run (items : List Item) (startMs : Nat) (evs : List Event) : SessionState :=
  evs.foldl (step items) (initState items startMs)

/-! Concrete instances used to exercise the model on explicit inputs. -/

/-- A minimal decision item shaped like the bank's IOT items. -/
def itemA : Item :=
  { id := "A", response_type := "decision+rationale", answer_key := { correct := some "a" } }

/-- A second decision item. -/
def itemB : Item :=
  { id := "B", response_type := "decision+rationale", answer_key := { correct := some "b" } }

/-- A decision item with a one-rung hint ladder. -/
def itemH : Item :=
  { id := "H", response_type := "decision+rationale",
    answer_key := { correct := some "a" }, hint_ladder := ["h1"] }

/-- A triage item whose only misconception detector throws, shaped like
TRIAGE-1 (whose detector dereferences `resp.bins`). -/
def itemT : Item :=
  { id := "T", response_type := "triage",
    answer_key := { correctBins := some [("vulnerability", ["X"]), ("mitigation", [])] },
    misconceptions := some [{ id := "m", detector := some (fun _ => .error ()) }] }

/-- A decision item whose first misconception detector throws. -/
def itemD : Item :=
  { id := "D", response_type := "decision+rationale",
    answer_key := { correct := some "a" },
    misconceptions := some [{ id := "m", detector := some (fun _ => .error ()) }] }

/-- Two-item bank. -/
def bankAB : List Item := [itemA, itemB]

/-- One-item bank. -/
def bankA : List Item := [itemA]

/-- An incorrect triage response to `itemT` (cards swapped between bins). -/
def respT : Response := { bins := some [("vulnerability", []), ("mitigation", ["X"])] }

/-- A response carrying only a Sequencer field: invalid for a decision
item's mechanic, yet it passes the mechanic-independent Submit guard. -/
def respOrd : Response := { order := some ["s1"] }

/-- A correct attempt record on item A. -/
def histA : HistoryEntry :=
  { item_id := "A", correct := true, latency_ms := 5, hints_used := 0 }

/-- The spec's mastery-arithmetic scenario: three correct attempts at
1000/2000/3000 ms with no hints. -/
def histMastery : List HistoryEntry :=
  [ { item_id := "i", correct := true, latency_ms := 1000, hints_used := 0 },
    { item_id := "i", correct := true, latency_ms := 2000, hints_used := 0 },
    { item_id := "i", correct := true, latency_ms := 3000, hints_used := 0 } ]

/-- A session state at which every item has been attempted once, the
incorrect set is empty, and a single correct attempt is on record. -/
def sOnceEach : SessionState :=
  { currentIndex := 0, showFeedback := false, feedbackState := none, hintIdx := -1,
    startMs := 0, currentItemMastered := true, currentItemRetries := 0,
    history := [histA], seenCounts := [1, 1], incorrectItems := [],
    sessionCompleted := false, telemetry := [], presented := [0, 1] }

/-- A session state with a mastery-qualifying history (three fast correct
attempts, no hints) and full coverage: the completion effect fires here. -/
def sMastered : SessionState :=
  { sOnceEach with
      history := [histA, { histA with item_id := "B" }, histA],
      seenCounts := [2, 1] }

/-- A single-item state with the item already seen and mastered. -/
def sSeenMastered : SessionState :=
  { currentIndex := 0, showFeedback := false, feedbackState := none, hintIdx := 3,
    startMs := 0, currentItemMastered := true, currentItemRetries := 1,
    history := [histA], seenCounts := [1], incorrectItems := [],
    sessionCompleted := false, telemetry := [], presented := [0] }

/-- Events of the C5 scenario: answer A and B correctly, advance into the
anti-repetition fallback (random pick 0 = A), then submit a forceNext
incorrect response on A whose stale selector call (random pick 1) moves to
B — so B's new instance begins with `currentItemMastered` carried over and
no submission of its own. -/
def traceForce : List Event :=
  [ .submit { choice := some "a" } 0 0,
    .next 0 0,
    .submit { choice := some "b" } 0 0,
    .next 0 0,
    .submit { choice := some "x", forceNext := true } 0 1 ]

/-- Events of the C6 repeat scenario: miss then master A, advance to B,
miss then master B; the next advance re-presents A after full coverage. -/
def traceRepeat : List Event :=
  [ .submit { choice := some "x" } 0 0,
    .retry 0,
    .submit { choice := some "a" } 0 0,
    .next 0 0,
    .submit { choice := some "y" } 0 0,
    .retry 0,
    .submit { choice := some "b" } 0 0 ]

/-- The state invariants of the session machine that the coverage-first
argument rests on: seen counts match the bank size, the current index is
in range, every attempted item has been presented, every presented
non-current item has been attempted, an unseen current item is the
left-most unseen one, and the incorrect set holds in-range indices. -/
structure Inv (items : List Item) (s : SessionState) : Prop where
  len_eq : s.seenCounts.length = items.length
  cur_lt : s.currentIndex < items.length
  cur_mem : s.currentIndex ∈ s.presented
  seen_presented : ∀ i, 0 < s.seenCounts.getD i 0 → i ∈ s.presented
  presented_seen : ∀ i ∈ s.presented, i ≠ s.currentIndex → 0 < s.seenCounts.getD i 0
  cur_first_unseen : s.seenCounts.getD s.currentIndex 0 = 0 →
    ∀ k < s.currentIndex, s.seenCounts.getD k 0 ≠ 0
  incorrect_lt : ∀ i ∈ s.incorrectItems, i < items.length

/-! General list helper lemmas. -/

theorem getD_set_self : ∀ (l : List Nat) (n x : Nat), n < l.length →
    (l.set n x).getD n 0 = x := by
  intro l
  induction l with
  | nil => intro n x h; simp at h
  | cons a as ih =>
    intro n x h
    cases n with
    | zero => rfl
    | succ m => simpa using ih m x (by simpa using h)

theorem getD_set_ne : ∀ (l : List Nat) (n i x : Nat), i ≠ n →
    (l.set n x).getD i 0 = l.getD i 0 := by
  intro l
  induction l with
  | nil => intro n i x _; simp
  | cons a as ih =>
    intro n i x hne
    cases n with
    | zero =>
      cases i with
      | zero => exact absurd rfl hne
      | succ m => simp
    | succ nm =>
      cases i with
      | zero => simp
      | succ m => simpa using ih nm m x (fun h => hne (by omega))

theorem getD_of_get? {l : List Nat} {i b : Nat} (h : l.get? i = some b) :
    l.getD i 0 = b := by
  simp [List.getD_eq_getElem?_getD, ← List.get?_eq_getElem?, h]

theorem getD_lt_length {l : List Nat} {i : Nat} (h : 0 < l.getD i 0) :
    i < l.length := by
  by_contra hge
  have : l.get? i = none := List.get?_eq_none.mpr (by omega)
  simp [List.getD_eq_getElem?_getD, ← List.get?_eq_getElem?, this] at h

theorem getD_pos_of_all_pos {l : List Nat} (hall : ∀ c ∈ l, 0 < c) {i : Nat}
    (hi : i < l.length) : 0 < l.getD i 0 := by
  have hget : l.get? i = some (l.get ⟨i, hi⟩) := List.get?_eq_get hi
  have hmem : l.get ⟨i, hi⟩ ∈ l := List.get_mem l i hi
  rw [getD_of_get? hget]
  exact hall _ hmem

theorem findIdx?_some_spec {α : Type} {p : α → Bool} :
    ∀ {l : List α} {j : Nat}, l.findIdx? p = some j →
      ∃ a, l.get? j = some a ∧ p a = true ∧
        ∀ k, k < j → ∀ b, l.get? k = some b → p b = false := by
  intro l
  induction l with
  | nil => intro j h; simp [List.findIdx?] at h
  | cons x xs ih =>
    intro j h
    rw [List.findIdx?_cons] at h
    by_cases hx : p x
    · simp [hx] at h
      subst h
      exact ⟨x, rfl, hx, fun k hk => by omega⟩
    · simp [hx, List.findIdx?_succ] at h
      obtain ⟨j', hj', rfl⟩ := h
      obtain ⟨a, hget, hpa, hmin⟩ := ih hj'
      refine ⟨a, by simpa using hget, hpa, ?_⟩
      intro k hk b hb
      cases k with
      | zero =>
        simp at hb
        subst hb
        simpa using hx
      | succ m =>
        exact hmin m (by omega) b (by simpa using hb)

theorem findIdx?_isSome_of_mem {α : Type} {p : α → Bool} :
    ∀ {l : List α} {a : α}, a ∈ l → p a = true → (l.findIdx? p).isSome := by
  intro l
  induction l with
  | nil => intro a h; simp at h
  | cons x xs ih =>
    intro a ha hp
    rw [List.findIdx?_cons]
    by_cases hx : p x
    · simp [hx]
    · simp only [hx, if_false, List.findIdx?_succ]
      rcases List.mem_cons.mp ha with rfl | ha'
      · exact absurd hp (by simpa using hx)
      · have := ih ha' hp
        cases hfind : xs.findIdx? p with
        | none => rw [hfind] at this; simp at this
        | some v => simp [hfind]

theorem streakAux_eq_takeWhile : ∀ l : List HistoryEntry,
    streakAux l = (l.takeWhile (fun e => e.correct)).length := by
  intro l
  induction l with
  | nil => rfl
  | cons e rest ih =>
    by_cases hc : e.correct
    · simp [streakAux, List.takeWhile_cons, hc, ih]
    · simp [streakAux, List.takeWhile_cons, hc]

theorem head?_insertionSort_min (seen : List Nat) (l : List Nat) {j : Nat}
    (h : (List.insertionSort
        (fun a b => seen.getD a 0 ≤ seen.getD b 0) l).head? = some j) :
    j ∈ l ∧ ∀ k ∈ l, seen.getD j 0 ≤ seen.getD k 0 := by
  set r := fun a b => seen.getD a 0 ≤ seen.getD b 0 with hr
  haveI : IsTotal Nat r := ⟨fun a b => Nat.le_total _ _⟩
  haveI : IsTrans Nat r := ⟨fun a b c hab hbc => Nat.le_trans hab hbc⟩
  have hperm : (List.insertionSort r l).Perm l := List.perm_insertionSort r l
  have hsorted : List.Sorted r (List.insertionSort r l) := List.sorted_insertionSort r l
  cases hs : List.insertionSort r l with
  | nil => rw [hs] at h; simp at h
  | cons y ys =>
    rw [hs] at h hperm hsorted
    have hyj : y = j := by simpa using h
    subst hyj
    constructor
    · exact hperm.mem_iff.mp (List.mem_cons_self _ _)
    · intro k hk
      have hk' := hperm.mem_iff.mpr hk
      rcases List.mem_cons.mp hk' with rfl | hk''
      · exact Nat.le_refl _
      · exact (List.sorted_cons.mp hsorted).1 k hk''

theorem remediationCandidates_subset (items : List Item) (inc : List Nat)
    (hist : List HistoryEntry) : remediationCandidates items inc hist ⊆ inc := by
  simp only [remediationCandidates]
  split
  · exact fun a ha => List.mem_of_mem_filter ha
  · exact fun _ h => h

theorem remediationCandidates_ne_nil (items : List Item) {inc : List Nat}
    (hist : List HistoryEntry) (h : inc ≠ []) :
    remediationCandidates items inc hist ≠ [] := by
  simp only [remediationCandidates]
  split
  · next hlen => intro hnil; rw [hnil] at hlen; simp at hlen
  · exact h

theorem mem_enumFilterMap_lt {seen : List Nat} {p : Nat × Nat → Bool} {j : Nat}
    (h : j ∈ (List.filter p seen.enum).map (fun x => x.1)) : j < seen.length := by
  obtain ⟨x, hx, rfl⟩ := List.mem_map.mp h
  have hxe : x ∈ seen.enum := List.mem_of_mem_filter hx
  have hget := List.mem_enum_iff_get?.mp hxe
  by_contra hge
  rw [List.get?_eq_none.mpr (by omega)] at hget
  exact Option.noConfusion hget

theorem get?_mod_some {α : Type} {l : List α} (h : l ≠ []) (n : Nat) :
    ∃ a, l.get? (n % l.length) = some a := by
  have hlen : 0 < l.length := List.length_pos.mpr h
  exact ⟨_, List.get?_eq_get (Nat.mod_lt _ hlen)⟩

/-- The sequential-coverage phase: with an unseen item present, the
selector returns the left-most unseen index. -/
theorem chooseNextIndex_sequential {items : List Item} {seen inc : List Nat}
    {hist : List HistoryEntry} {rng : Nat} {lc : Bool} (h0 : 0 ∈ seen) :
    ∃ j, chooseNextIndex items seen inc hist rng lc = some j ∧
      seen.get? j = some 0 ∧ ∀ k < j, ∀ b, seen.get? k = some b → b ≠ 0 := by
  have hall : seen.all (fun c => c > 0) = false := by
    cases hA : seen.all (fun c => c > 0) with
    | false => rfl
    | true => have := List.all_eq_true.mp hA 0 h0; simp at this
  have hsome := findIdx?_isSome_of_mem (p := fun c => c == 0) h0 (by simp)
  obtain ⟨j, hj⟩ := Option.isSome_iff_exists.mp hsome
  obtain ⟨a, hget, hpa, hmin⟩ := findIdx?_some_spec hj
  refine ⟨j, ?_, ?_, ?_⟩
  · simp [chooseNextIndex, hall, hj]
  · have : a = 0 := by simpa using hpa
    rwa [this] at hget
  · intro k hk b hb
    have := hmin k hk b hb
    simpa using this

/-- The remediation phase: with full coverage and a non-empty incorrect
set, the selector returns a least-seen remediation candidate. -/
theorem chooseNextIndex_remediation {items : List Item} {seen inc : List Nat}
    {hist : List HistoryEntry} {rng : Nat} {lc : Bool}
    (hall : ∀ c ∈ seen, 0 < c) (hne : inc ≠ []) :
    ∃ j, chooseNextIndex items seen inc hist rng lc = some j ∧
      j ∈ remediationCandidates items inc hist ∧
      ∀ k ∈ remediationCandidates items inc hist,
        seen.getD j 0 ≤ seen.getD k 0 := by
  have hA : seen.all (fun c => c > 0) = true := List.all_eq_true.mpr (by simpa using hall)
  have hlen : inc.length > 0 := List.length_pos.mpr hne
  set r := fun a b => seen.getD a 0 ≤ seen.getD b 0 with hr
  have hcne : remediationCandidates items inc hist ≠ [] :=
    remediationCandidates_ne_nil items hist hne
  have hsne : List.insertionSort r (remediationCandidates items inc hist) ≠ [] := by
    intro hnil
    have := (List.perm_insertionSort r (remediationCandidates items inc hist)).length_eq
    rw [hnil] at this
    exact hcne (List.length_eq_zero.mp this.symm)
  obtain ⟨j, hj⟩ := Option.isSome_iff_exists.mp (by
    cases hs : List.insertionSort r (remediationCandidates items inc hist) with
    | nil => exact absurd hs hsne
    | cons y ys => simp [hs] :
      (List.insertionSort r (remediationCandidates items inc hist)).head?.isSome)
  have hmin := head?_insertionSort_min seen (remediationCandidates items inc hist) hj
  refine ⟨j, ?_, hmin.1, hmin.2⟩
  simp only [chooseNextIndex, hA, Bool.not_true]
  rw [if_neg (by simp), if_pos hlen]
  exact hj

/-- With full coverage and an empty incorrect set, the selector still
returns an in-range index (the anti-repetition least-seen fallback). -/
theorem chooseNextIndex_fallback_isSome {items : List Item} {seen : List Nat}
    {hist : List HistoryEntry} {rng : Nat} {lc : Bool}
    (hne : seen ≠ []) (hall : ∀ c ∈ seen, 0 < c) :
    ∃ j, chooseNextIndex items seen [] hist rng lc = some j ∧ j < seen.length := by
  have hA : seen.all (fun c => c > 0) = true := List.all_eq_true.mpr (by simpa using hall)
  have hmin : seen.min? = some ((seen.min?).getD 0) := by
    cases hm : seen.min? with
    | none => exact absurd (List.min?_eq_none_iff.mp hm) hne
    | some m => rfl
  have hmem : ((seen.min?).getD 0) ∈ seen := List.min?_mem (fun a b => min_choice a b) hmin
  obtain ⟨n, hn⟩ := List.mem_iff_get?.mp hmem
  have hnenum : (n, (seen.min?).getD 0) ∈ seen.enum := List.mem_enum_iff_get?.mpr hn
  set mc := (seen.min?).getD 0 with hmc
  set cand₀ := (seen.enum.filter
    (fun x => x.2 == mc
      && !((recentIds hist).contains (itemIdAt items x.1)))).map (fun x => x.1) with hc0
  set cand₁ := (seen.enum.filter (fun x => x.2 == mc)).map (fun x => x.1) with hc1
  have hc1ne : cand₁ ≠ [] := by
    intro hnil
    have : n ∈ cand₁ := List.mem_map.mpr ⟨(n, mc), List.mem_filter.mpr ⟨hnenum, by simp⟩, rfl⟩
    rw [hnil] at this
    exact List.not_mem_nil _ this
  by_cases hempty : cand₀.length = 0
  · obtain ⟨j, hj⟩ := get?_mod_some hc1ne rng
    refine ⟨j, ?_, ?_⟩
    · simp only [chooseNextIndex, hA, Bool.not_true]
      rw [if_neg (by simp), if_neg (by simp), ← hmc, ← hc0, ← hc1, if_pos hempty]
      exact hj
    · exact mem_enumFilterMap_lt (hc1 ▸ List.get?_mem hj)
  · have hc0ne : cand₀ ≠ [] := by
      intro hnil; rw [hnil] at hempty; simp at hempty
    obtain ⟨j, hj⟩ := get?_mod_some hc0ne rng
    refine ⟨j, ?_, ?_⟩
    · simp only [chooseNextIndex, hA, Bool.not_true]
      rw [if_neg (by simp), if_neg (by simp), ← hmc, ← hc0, ← hc1, if_neg hempty]
      exact hj
    · exact mem_enumFilterMap_lt (hc0 ▸ List.get?_mem hj)

/-- Any index the selector returns is either the left-most unseen index
(sequential phase) or, under full coverage, an in-range index. -/
theorem chooseNextIndex_cases {items : List Item} {seen inc : List Nat}
    {hist : List HistoryEntry} {rng : Nat} {lc : Bool} {j : Nat}
    (hinc : ∀ i ∈ inc, i < seen.length)
    (h : chooseNextIndex items seen inc hist rng lc = some j) :
    (seen.get? j = some 0 ∧ ∀ k < j, ∀ b, seen.get? k = some b → b ≠ 0)
    ∨ ((∀ c ∈ seen, 0 < c) ∧ j < seen.length) := by
  by_cases hA : seen.all (fun c => c > 0) = true
  · right
    have hall : ∀ c ∈ seen, 0 < c := by
      intro c hc
      have := List.all_eq_true.mp hA c hc
      simpa using this
    refine ⟨hall, ?_⟩
    by_cases hlen : inc.length > 0
    · have hne' : inc ≠ [] := by
        intro hnil; rw [hnil] at hlen; simp at hlen
      have hrem := @chooseNextIndex_remediation items seen inc hist rng lc hall hne'
      obtain ⟨j', hj', hmem', -⟩ := hrem
      rw [h] at hj'
      have : j' = j := by simpa using hj'.symm
      subst this
      exact hinc j' (remediationCandidates_subset items inc hist hmem')
    · have hinc0 : inc = [] := by
        cases inc with
        | nil => rfl
        | cons a as => simp at hlen
      subst hinc0
      have hne : seen ≠ [] := by
        intro hnil
        subst hnil
        simp [chooseNextIndex] at h
      obtain ⟨j', hj', hlt'⟩ := @chooseNextIndex_fallback_isSome items seen hist rng lc hne hall
      rw [h] at hj'
      have : j' = j := by simpa using hj'.symm
      subst this
      exact hlt'
  · left
    have h0 : 0 ∈ seen := by
      have hA' : seen.all (fun c => c > 0) = false := by
        cases hB : seen.all (fun c => c > 0) with
        | false => rfl
        | true => exact absurd hB hA
      obtain ⟨c, hc, hcp⟩ := List.all_eq_false.mp hA'
      have : c = 0 := by simpa using hcp
      rwa [this] at hc
    obtain ⟨j', hj', hget', hmin'⟩ := @chooseNextIndex_sequential items seen inc hist rng lc h0
    rw [h] at hj'
    have : j' = j := by simpa using hj'.symm
    subst this
    exact ⟨hget', hmin'⟩

theorem get?_of_getD_zero {l : List Nat} {i : Nat} (hi : i < l.length)
    (h : l.getD i 0 = 0) : l.get? i = some 0 := by
  have hg := List.get?_eq_get hi
  rw [getD_of_get? hg] at h
  rw [hg, h]

theorem inv_handleRetry {items : List Item} {s : SessionState} (t : Nat)
    (hInv : Inv items s) : Inv items (handleRetry s t) := by
  obtain ⟨h1, h2, h3, h4, h5, h6, h7⟩ := hInv
  exact ⟨h1, h2, h3, h4, h5, h6, h7⟩

theorem inv_handleHint {items : List Item} {s : SessionState}
    (hInv : Inv items s) : Inv items (handleHint items s) := by
  obtain ⟨h1, h2, h3, h4, h5, h6, h7⟩ := hInv
  exact ⟨h1, h2, h3, h4, h5, h6, h7⟩

theorem inv_handleNext {items : List Item} {s : SessionState} (t rng : Nat)
    (hInv : Inv items s) : Inv items (handleNext items s t rng) := by
  unfold handleNext
  split
  · exact hInv
  · split
    · exact hInv
    · next nextIdx heq =>
      have hinc : ∀ i ∈ s.incorrectItems, i < s.seenCounts.length := by
        intro i hi
        rw [hInv.len_eq]
        exact hInv.incorrect_lt i hi
      have hcases := chooseNextIndex_cases hinc heq
      unfold presentAt
      split
      · next heqidx =>
        obtain ⟨h1, h2, h3, h4, h5, h6, h7⟩ := hInv
        exact ⟨h1, h2, h3, h4, h5, h6, h7⟩
      · next hneidx =>
        have hne : nextIdx ≠ s.currentIndex := by simpa using hneidx
        have hcur0 : 0 < s.seenCounts.getD s.currentIndex 0 := by
          by_contra hc
          have hzero : s.seenCounts.getD s.currentIndex 0 = 0 := by omega
          have hcurlen : s.currentIndex < s.seenCounts.length := by
            rw [hInv.len_eq]; exact hInv.cur_lt
          rcases hcases with ⟨hget, hmin⟩ | ⟨hall, hlt⟩
          · rcases Nat.lt_trichotomy nextIdx s.currentIndex with hlt' | heq' | hgt'
            · exact hInv.cur_first_unseen hzero nextIdx hlt' (getD_of_get? hget)
            · exact hne heq'
            · exact hmin s.currentIndex hgt' 0 (get?_of_getD_zero hcurlen hzero) rfl
          · have := getD_pos_of_all_pos hall hcurlen
            omega
        refine ⟨?_, ?_, ?_, ?_, ?_, ?_, ?_⟩
        · exact hInv.len_eq
        · rcases hcases with ⟨hget, -⟩ | ⟨-, hlt⟩
          · have : nextIdx < s.seenCounts.length := by
              by_contra hge
              rw [List.get?_eq_none.mpr (by omega)] at hget
              exact Option.noConfusion hget
            rw [hInv.len_eq] at this
            exact this
          · rw [hInv.len_eq] at hlt
            exact hlt
        · exact List.mem_append_right _ (List.mem_singleton.mpr rfl)
        · intro i hi
          exact List.mem_append_left _ (hInv.seen_presented i hi)
        · intro i hi hneq
          rcases List.mem_append.mp hi with hiP | hij
          · by_cases hic : i = s.currentIndex
            · subst hic
              exact hcur0
            · exact hInv.presented_seen i hiP hic
          · exact absurd (List.mem_singleton.mp hij) hneq
        · intro hzero k hk
          dsimp only at hzero hk ⊢
          rcases hcases with ⟨hget, hmin⟩ | ⟨hall, hlt⟩
          · intro hk0
            have hklen : k < s.seenCounts.length := by
              have : nextIdx < s.seenCounts.length := by
                by_contra hge
                rw [List.get?_eq_none.mpr (by omega)] at hget
                exact Option.noConfusion hget
              omega
            exact hmin k hk 0 (get?_of_getD_zero hklen hk0) rfl
          · have := getD_pos_of_all_pos hall hlt
            omega
        · exact hInv.incorrect_lt

theorem inv_bump_stay {items : List Item} {s : SessionState}
    (hInv : Inv items s) {s' : SessionState}
    (hcur : s'.currentIndex = s.currentIndex)
    (hpres : s'.presented = s.presented)
    (hseen : s'.seenCounts
      = s.seenCounts.set s.currentIndex (s.seenCounts.getD s.currentIndex 0 + 1))
    (hinc : ∀ i ∈ s'.incorrectItems, i < items.length) :
    Inv items s' := by
  have hcurlen : s.currentIndex < s.seenCounts.length := by
    rw [hInv.len_eq]; exact hInv.cur_lt
  have f2 := getD_set_self s.seenCounts s.currentIndex
    (s.seenCounts.getD s.currentIndex 0 + 1) hcurlen
  refine ⟨?_, ?_, ?_, ?_, ?_, ?_, hinc⟩
  · rw [hseen, List.length_set, hInv.len_eq]
  · rw [hcur]; exact hInv.cur_lt
  · rw [hcur, hpres]; exact hInv.cur_mem
  · intro i hi
    rw [hseen] at hi
    rw [hpres]
    by_cases hic : i = s.currentIndex
    · subst hic; exact hInv.cur_mem
    · rw [getD_set_ne _ _ _ _ hic] at hi
      exact hInv.seen_presented i hi
  · intro i hi hne
    rw [hpres] at hi
    rw [hcur] at hne
    rw [hseen]
    by_cases hic : i = s.currentIndex
    · exact absurd hic hne
    · rw [getD_set_ne _ _ _ _ hic]
      exact hInv.presented_seen i hi hic
  · rw [hcur, hseen]
    intro h0
    rw [f2] at h0
    omega

theorem inv_bump_move {items : List Item} {s : SessionState}
    {rng : Nat} {lc : Bool} {j : Nat}
    (hInv : Inv items s)
    (hj : chooseNextIndex items s.seenCounts s.incorrectItems s.history rng lc = some j)
    (hne : j ≠ s.currentIndex) {s' : SessionState}
    (hcur : s'.currentIndex = j)
    (hpres : s'.presented = s.presented ++ [j])
    (hseen : s'.seenCounts
      = s.seenCounts.set s.currentIndex (s.seenCounts.getD s.currentIndex 0 + 1))
    (hinc : ∀ i ∈ s'.incorrectItems, i < items.length) :
    Inv items s' := by
  have hcurlen : s.currentIndex < s.seenCounts.length := by
    rw [hInv.len_eq]; exact hInv.cur_lt
  have f2 := getD_set_self s.seenCounts s.currentIndex
    (s.seenCounts.getD s.currentIndex 0 + 1) hcurlen
  have hincs : ∀ i ∈ s.incorrectItems, i < s.seenCounts.length := by
    intro i hi; rw [hInv.len_eq]; exact hInv.incorrect_lt i hi
  have hcases := chooseNextIndex_cases hincs hj
  have hjlen : j < s.seenCounts.length := by
    rcases hcases with ⟨hget, -⟩ | ⟨-, hlt⟩
    · by_contra hge
      rw [List.get?_eq_none.mpr (by omega)] at hget
      exact Option.noConfusion hget
    · exact hlt
  refine ⟨?_, ?_, ?_, ?_, ?_, ?_, hinc⟩
  · rw [hseen, List.length_set, hInv.len_eq]
  · rw [hcur, ← hInv.len_eq]; exact hjlen
  · rw [hcur, hpres]
    exact List.mem_append_right _ (List.mem_singleton.mpr rfl)
  · intro i hi
    rw [hseen] at hi
    rw [hpres]
    by_cases hic : i = s.currentIndex
    · subst hic; exact List.mem_append_left _ hInv.cur_mem
    · rw [getD_set_ne _ _ _ _ hic] at hi
      exact List.mem_append_left _ (hInv.seen_presented i hi)
  · intro i hi hnej
    rw [hpres] at hi
    rw [hcur] at hnej
    rw [hseen]
    rcases List.mem_append.mp hi with hiP | hij
    · by_cases hic : i = s.currentIndex
      · subst hic; rw [f2]; omega
      · rw [getD_set_ne _ _ _ _ hic]
        exact hInv.presented_seen i hiP hic
    · exact absurd (List.mem_singleton.mp hij) hnej
  · rw [hcur, hseen]
    intro h0 k hk
    rw [getD_set_ne _ _ _ _ hne] at h0
    rcases hcases with ⟨hget, hmin⟩ | ⟨hall, hlt⟩
    · by_cases hkc : k = s.currentIndex
      · subst hkc; rw [f2]; omega
      · rw [getD_set_ne _ _ _ _ hkc]
        intro hk0
        exact hmin k hk 0 (get?_of_getD_zero (by omega) hk0) rfl
    · have := getD_pos_of_all_pos hall hjlen
      omega

theorem inv_handleSubmit {items : List Item} {s : SessionState} (r : Response)
    (t rng : Nat) (hInv : Inv items s) : Inv items (handleSubmit items s r t rng) := by
  have gAdd : ∀ i ∈ setAdd s.incorrectItems s.currentIndex, i < items.length := by
    intro i hi
    unfold setAdd at hi
    split at hi
    · exact hInv.incorrect_lt i hi
    · rcases List.mem_append.mp hi with h | h
      · exact hInv.incorrect_lt i h
      · rw [List.mem_singleton.mp h]; exact hInv.cur_lt
  have gDel : ∀ i ∈ setDelete s.incorrectItems s.currentIndex, i < items.length := by
    intro i hi
    exact hInv.incorrect_lt i (List.erase_subset _ _ hi)
  have gIte : ∀ (b : Bool), ∀ i ∈ (if b = true then setAdd s.incorrectItems s.currentIndex
      else setDelete s.incorrectItems s.currentIndex), i < items.length := by
    intro b
    cases b
    · simpa using gDel
    · simpa using gAdd
  unfold handleSubmit
  dsimp only
  split
  · exact hInv
  · split
    · exact hInv
    · next result heq =>
      by_cases hforce : r.forceNext = true
      · rw [if_pos hforce]
        cases heq2 : chooseNextIndex items s.seenCounts s.incorrectItems s.history
            rng result.correct with
        | none =>
          exact inv_bump_stay hInv rfl rfl rfl (gIte _)
        | some nextIdx =>
          unfold presentAt
          dsimp only
          by_cases hni : nextIdx = s.currentIndex
          · rw [if_pos hni]
            exact inv_bump_stay hInv rfl rfl rfl (gIte _)
          · rw [if_neg hni]
            exact inv_bump_move hInv heq2 hni rfl rfl rfl (gIte _)
      · rw [if_neg hforce]
        exact inv_bump_stay hInv rfl rfl rfl (gIte _)

theorem inv_step {items : List Item} {s : SessionState} (e : Event)
    (hInv : Inv items s) : Inv items (step items s e) := by
  cases e with
  | submit r t rng => exact inv_handleSubmit r t rng hInv
  | retry t => exact inv_handleRetry t hInv
  | next t rng => exact inv_handleNext t rng hInv
  | hint => exact inv_handleHint hInv

theorem inv_initState {items : List Item} (startMs : Nat)
    (hne : 0 < items.length) : Inv items (initState items startMs) := by
  refine ⟨?_, ?_, ?_, ?_, ?_, ?_, ?_⟩
  · simp [initState]
  · simpa [initState] using hne
  · simp [initState]
  · intro i hi
    simp only [initState] at hi
    rw [List.getD_eq_getElem?_getD] at hi
    rcases hgl : (items.map (fun _ => 0))[i]? with - | v
    · rw [hgl] at hi; simp at hi
    · rw [hgl] at hi
      obtain ⟨a, -, hv⟩ := List.mem_map.mp (List.getElem?_mem hgl)
      rw [← hv] at hi
      simp at hi
  · intro i hi hne'
    simp only [initState] at hi hne'
    exact absurd (by simpa using hi) hne'
  · intro h0 k hk
    simp only [initState] at hk
    omega
  · intro i hi
    simp only [initState] at hi
    exact absurd hi (List.not_mem_nil i)

theorem inv_run {items : List Item} (startMs : Nat) (evs : List Event)
    (hne : 0 < items.length) : Inv items (run items startMs evs) := by
  unfold run
  have hInit := @inv_initState items startMs hne
  generalize initState items startMs = s₀ at hInit
  induction evs generalizing s₀ with
  | nil => exact hInit
  | cons e rest ih => exact ih _ (inv_step e hInit)

theorem ne_append_singleton {α : Type} (P : List α) (j : α) : P ≠ P ++ [j] := by
  intro h
  have := congrArg List.length h
  simp at this

theorem append_singleton_inj {α : Type} {P : List α} {a b : α}
    (h : P ++ [a] = P ++ [b]) : a = b := by
  have h2 := List.append_cancel_left h
  simpa using h2

/-- Whenever a handler extends the `presented` trace with `j`, the new
index is distinct from the current one and was produced by the selector:
it is either the left-most unseen index, or an in-range index chosen
under full coverage. -/
theorem step_presented_append {items : List Item} {s : SessionState} {e : Event} {j : Nat}
    (hInv : Inv items s)
    (happ : (step items s e).presented = s.presented ++ [j]) :
    j ≠ s.currentIndex ∧
    ((s.seenCounts.get? j = some 0 ∧ ∀ k < j, ∀ b, s.seenCounts.get? k = some b → b ≠ 0)
      ∨ ((∀ c ∈ s.seenCounts, 0 < c) ∧ j < s.seenCounts.length)) := by
  have hincs : ∀ i ∈ s.incorrectItems, i < s.seenCounts.length := by
    intro i hi; rw [hInv.len_eq]; exact hInv.incorrect_lt i hi
  cases e with
  | retry t => exact absurd happ (ne_append_singleton _ _)
  | hint => exact absurd happ (ne_append_singleton _ _)
  | next t rng =>
    dsimp only [step] at happ
    unfold handleNext at happ
    by_cases hm : (!s.currentItemMastered) = true
    · rw [if_pos hm] at happ
      exact absurd happ (ne_append_singleton _ _)
    · rw [if_neg hm] at happ
      rcases heq : chooseNextIndex items s.seenCounts s.incorrectItems s.history rng
          (((s.feedbackState).map (fun f => f.correct)).getD false) with - | nextIdx
      · rw [heq] at happ
        exact absurd happ (ne_append_singleton _ _)
      · rw [heq] at happ
        unfold presentAt at happ
        dsimp only at happ
        by_cases hni : nextIdx = s.currentIndex
        · rw [if_pos hni] at happ
          exact absurd happ (ne_append_singleton _ _)
        · rw [if_neg hni] at happ
          dsimp only at happ
          have hj : nextIdx = j := append_singleton_inj happ
          subst hj
          exact ⟨hni, chooseNextIndex_cases hincs heq⟩
  | submit r t rng =>
    dsimp only [step] at happ
    unfold handleSubmit at happ
    dsimp only at happ
    by_cases hg : (r.choice == none && r.order == none && r.pairs == none
        && r.bins == none) = true
    · rw [if_pos hg] at happ
      exact absurd happ (ne_append_singleton _ _)
    · rw [if_neg hg] at happ
      rcases heval : evaluate (itemAt items s.currentIndex) r with er | result
      · rw [heval] at happ
        dsimp only at happ
        exact absurd happ (ne_append_singleton _ _)
      · rw [heval] at happ
        dsimp only at happ
        by_cases hforce : r.forceNext = true
        · rw [if_pos hforce] at happ
          rcases heq2 : chooseNextIndex items s.seenCounts s.incorrectItems s.history
              rng result.correct with - | nextIdx
          · rw [heq2] at happ
            dsimp only at happ
            exact absurd happ (ne_append_singleton _ _)
          · rw [heq2] at happ
            unfold presentAt at happ
            dsimp only at happ
            by_cases hni : nextIdx = s.currentIndex
            · rw [if_pos hni] at happ
              exact absurd happ (ne_append_singleton _ _)
            · rw [if_neg hni] at happ
              dsimp only at happ
              have hj : nextIdx = j := append_singleton_inj happ
              subst hj
              exact ⟨hni, chooseNextIndex_cases hincs heq2⟩
        · rw [if_neg hforce] at happ
          exact absurd happ (ne_append_singleton _ _)

/-- The coverage-first argument, step form: if a handler presents an index
that was presented before, then every index of the bank has already been
presented. -/
theorem repeat_implies_covered {items : List Item} {s : SessionState} {e : Event} {j : Nat}
    (hInv : Inv items s)
    (happ : (step items s e).presented = s.presented ++ [j])
    (hmem : j ∈ s.presented) :
    ∀ i < items.length, i ∈ s.presented := by
  obtain ⟨hne, hcases⟩ := step_presented_append hInv happ
  rcases hcases with ⟨hget, -⟩ | ⟨hall, -⟩
  · have hpos := hInv.presented_seen j hmem hne
    rw [getD_of_get? hget] at hpos
    exact absurd hpos (lt_irrefl 0)
  · intro i hi
    have hi' : i < s.seenCounts.length := by rw [hInv.len_eq]; exact hi
    exact hInv.seen_presented i (getD_pos_of_all_pos hall hi')

theorem handleNext_guard {items : List Item} {s : SessionState} (t rng : Nat)
    (hm : s.currentItemMastered = false) : handleNext items s t rng = s := by
  unfold handleNext
  rw [if_pos (by simp [hm])]

/-- Shared shape of a non-rejected, non-throwing Submit: exactly one
attempt record and one attempt telemetry event are appended, both carrying
the evaluator's verdict. -/
theorem handleSubmit_appends {items : List Item} {s : SessionState} {r : Response}
    {t rng : Nat} {res : EvalResult}
    (heval : evaluate (itemAt items s.currentIndex) r = .ok res)
    (hguard : ¬(r.choice = none ∧ r.order = none ∧ r.pairs = none ∧ r.bins = none)) :
    (handleSubmit items s r t rng).history = s.history
      ++ [{ item_id := (itemAt items s.currentIndex).id, correct := res.correct,
            latency_ms := t - s.startMs, hints_used := (s.hintIdx + 1).toNat,
            misconception_id := res.misconception_id,
            retries := s.currentItemRetries }] ∧
    (handleSubmit items s r t rng).telemetry = s.telemetry
      ++ [.attempt (itemAt items s.currentIndex).id res.correct res.misconception_id] := by
  have hgb : ¬((r.choice == none && r.order == none && r.pairs == none
      && r.bins == none) = true) := by
    intro hb
    simp only [Bool.and_eq_true, beq_iff_eq] at hb
    exact hguard ⟨hb.1.1.1, hb.1.1.2, hb.1.2, hb.2⟩
  unfold handleSubmit
  dsimp only
  rw [if_neg hgb, heval]
  dsimp only
  by_cases hforce : r.forceNext = true
  · rw [if_pos hforce]
    cases heq2 : chooseNextIndex items s.seenCounts s.incorrectItems s.history
        rng res.correct with
    | none => exact ⟨rfl, rfl⟩
    | some nextIdx =>
      unfold presentAt
      dsimp only
      by_cases hni : nextIdx = s.currentIndex
      · rw [if_pos hni]; exact ⟨rfl, rfl⟩
      · rw [if_neg hni]; exact ⟨rfl, rfl⟩
  · rw [if_neg hforce]
    exact ⟨rfl, rfl⟩

/-- C1 counterexample: a state in which every item has been attempted and
the incorrect set is empty, yet `chooseNextIndex` returns an item (never
`null`), and the completion effect does not fire because `masteryMet` is
false (one correct attempt, streak 1 < 3). This refutes both halves of the
claim: emptiness of the incorrect set neither makes the selector return
`null` nor terminates the session independently of `masteryMet`. -/
theorem claim_C1_counterexample :
    chooseNextIndex bankAB [1, 1] [] [histA] 0 false = some 1 ∧
    completionTriggered sOnceEach = false := by
  constructor
  · decide
  · decide

/-- C1 amended: for a non-empty bank with full coverage and an empty
incorrect set, `chooseNextIndex` returns `some` in-range index (it has no
null branch); the session-completion effect fires only when `masteryMet`
holds, every item has been seen, and history is non-empty — so termination
depends on `masteryMet`, not on the emptiness of the incorrect set. -/
theorem claim_C1_amended :
    (∀ (items : List Item) (seen : List Nat) (hist : List HistoryEntry)
        (rng : Nat) (lc : Bool),
      seen ≠ [] → (∀ c ∈ seen, 0 < c) →
      ∃ j, chooseNextIndex items seen [] hist rng lc = some j ∧ j < seen.length) ∧
    (∀ s : SessionState, completionTriggered s = true →
      (computeMastery s.history).masteryMet = true
        ∧ s.seenCounts.all (fun c => c > 0) = true
        ∧ s.history ≠ []) := by
  constructor
  · intro items seen hist rng lc hne hall
    exact chooseNextIndex_fallback_isSome hne hall
  · intro s h
    unfold completionTriggered at h
    simp only [Bool.and_eq_true] at h
    refine ⟨h.1.1.1, h.1.1.2, ?_⟩
    have h4 : s.history.length > 0 := by simpa using h.2
    exact List.length_pos.mp h4

/-- C1 amended, witness at concrete inputs. -/
theorem claim_C1_amended_witness :
    (∃ j, chooseNextIndex bankAB [1, 1] [] [histA] 0 false = some j
      ∧ j < ([1, 1] : List Nat).length) ∧
    ((computeMastery sMastered.history).masteryMet = true
      ∧ sMastered.seenCounts.all (fun c => c > 0) = true
      ∧ sMastered.history ≠ []) := by
  have hC : completionTriggered sMastered = true := by
    unfold completionTriggered computeMastery
    norm_num [sMastered, sOnceEach, histA, streakAux, masteryConfig]
  constructor
  · exact claim_C1_amended.1 bankAB [1, 1] [histA] 0 false (by decide) (by decide)
  · exact claim_C1_amended.2 sMastered hC

/-- C2 counterexample: on a fresh item instance, a correct Submit (which
leaves `retriesOnCurrentItem` at 0) followed by Retry and an incorrect
Submit ends with `itemMastered = false`: the later miss runs with
`currentItemRetries == 0`, so `handleSubmit` resets `itemMastered` before
evaluating, contrary to the claim that mastery persists. -/
theorem claim_C2_counterexample :
    evaluate itemA { choice := some "a" } = .ok { correct := true } ∧
    evaluate itemA { choice := some "x" } = .ok { correct := false } ∧
    (run bankA 0 [.submit { choice := some "a" } 0 0, .retry 0,
      .submit { choice := some "x" } 0 0]).currentItemMastered = false := by
  refine ⟨rfl, rfl, by decide⟩

/-- C2 amended: Retry resets only the feedback view, the hint index and
the start timestamp — `itemMastered` and `retriesOnCurrentItem` persist
across it; and a later Submit preserves `itemMastered` provided
`retriesOnCurrentItem > 0` at that submission (a non-forceNext Submit
with `retriesOnCurrentItem = 0` first resets `itemMastered`, so mastery
from a retries-0 correct attempt is lost on a retry-then-miss). -/
theorem claim_C2_amended :
    (∀ (s : SessionState) (t : Nat),
      (handleRetry s t).currentItemMastered = s.currentItemMastered ∧
      (handleRetry s t).currentItemRetries = s.currentItemRetries ∧
      (handleRetry s t).hintIdx = -1 ∧
      (handleRetry s t).startMs = t ∧
      (handleRetry s t).history = s.history ∧
      (handleRetry s t).seenCounts = s.seenCounts ∧
      (handleRetry s t).incorrectItems = s.incorrectItems ∧
      (handleRetry s t).currentIndex = s.currentIndex) ∧
    (∀ (items : List Item) (s : SessionState) (r : Response) (t rng : Nat),
      0 < s.currentItemRetries → s.currentItemMastered = true →
      (handleSubmit items s r t rng).currentItemMastered = true) := by
  constructor
  · intro s t
    exact ⟨rfl, rfl, rfl, rfl, rfl, rfl, rfl, rfl⟩
  · intro items s r t rng hpos hm
    have hz : (s.currentItemRetries == 0) = false := by
      simp only [beq_eq_false_iff_ne, ne_eq]
      omega
    unfold handleSubmit
    dsimp only
    by_cases hg : (r.choice == none && r.order == none && r.pairs == none
        && r.bins == none) = true
    · rw [if_pos hg]; exact hm
    · rw [if_neg hg]
      cases heval : evaluate (itemAt items s.currentIndex) r with
      | error er => exact hm
      | ok result =>
        dsimp only
        by_cases hforce : r.forceNext = true
        · rw [if_pos hforce]
          cases heq2 : chooseNextIndex items s.seenCounts s.incorrectItems s.history
              rng result.correct with
          | none => rfl
          | some nextIdx =>
            unfold presentAt
            dsimp only
            by_cases hni : nextIdx = s.currentIndex
            · rw [if_pos hni]
            · rw [if_neg hni]
        · rw [if_neg hforce]
          dsimp only
          rw [hz]
          simp [hm]

/-- C2 amended, witness at concrete inputs. -/
theorem claim_C2_amended_witness :
    (handleRetry sSeenMastered 9).currentItemMastered = sSeenMastered.currentItemMastered ∧
    (handleSubmit bankA sSeenMastered { choice := some "x" } 9 0).currentItemMastered
      = true := by
  constructor
  · exact (claim_C2_amended.1 sSeenMastered 9).1
  · exact claim_C2_amended.2 bankA sSeenMastered { choice := some "x" } 9 0 (by decide) rfl

/-- C3 counterexample: `itemH` has a single hint, so
`hintLadder.length - 1 = 0`; after one RequestHint the state has
`hintIndex = 0`, and a second RequestHint still increments it to 1 (past
the end of the ladder) instead of being a no-op. -/
theorem claim_C3_counterexample :
    itemH.hint_ladder.length - 1 = 0 ∧
    (run [itemH] 0 [.hint]).hintIdx = 0 ∧
    (run [itemH] 0 [.hint, .hint]).hintIdx = 1 := by
  refine ⟨rfl, by decide, by decide⟩

/-- C3 amended: RequestHint always increments `hintIndex` by one with no
cap (so it can exceed `hintLadder.length - 1`, and the telemetry hint text
is then out of range); `hintIndex` resets to -1 on Retry and on a
successful Advance. -/
theorem claim_C3_amended :
    (∀ (items : List Item) (s : SessionState),
      (handleHint items s).hintIdx = s.hintIdx + 1) ∧
    (∀ (s : SessionState) (t : Nat), (handleRetry s t).hintIdx = -1) ∧
    (∀ (items : List Item) (s : SessionState) (t rng j : Nat),
      s.currentItemMastered = true →
      chooseNextIndex items s.seenCounts s.incorrectItems s.history rng
        (((s.feedbackState).map (fun f => f.correct)).getD false) = some j →
      (handleNext items s t rng).hintIdx = -1) := by
  refine ⟨fun items s => rfl, fun s t => rfl, ?_⟩
  intro items s t rng j hm hchoose
  unfold handleNext
  rw [if_neg (by simp [hm]), hchoose]
  unfold presentAt
  dsimp only
  by_cases hni : j = s.currentIndex
  · rw [if_pos hni]
  · rw [if_neg hni]

/-- C3 amended, witness at concrete inputs. -/
theorem claim_C3_amended_witness :
    (handleHint bankA sSeenMastered).hintIdx = sSeenMastered.hintIdx + 1 ∧
    (handleRetry sSeenMastered 9).hintIdx = -1 ∧
    (handleNext bankA sSeenMastered 9 0).hintIdx = -1 := by
  refine ⟨claim_C3_amended.1 bankA sSeenMastered, claim_C3_amended.2.1 sSeenMastered 9, ?_⟩
  exact claim_C3_amended.2.2 bankA sSeenMastered 9 0 0 rfl (by decide)

/-- C4 counterexample: on a triage item whose only detector throws, an
incorrect response makes `evaluate` itself throw — the exception
propagates out instead of being treated as non-matching. -/
theorem claim_C4_counterexample : evaluate itemT respT = .error () := rfl

/-- C4 amended: only the decision+rationale branch of `evaluate` catches
detector exceptions: there, evaluation always returns normally, and a
detector that throws on the response is skipped exactly as if it were
absent; in the order/match/triage branches a detector exception
propagates out of `evaluate` (see the counterexample). -/
theorem claim_C4_amended :
    (∀ (item : Item) (r : Response),
      item.response_type = "decision+rationale" →
      ∃ res, evaluate item r = .ok res) ∧
    (∀ (item : Item) (r : Response) (mid : String)
        (d : Response → Except Unit Bool) (rest : List Misconception) (er : Unit),
      item.response_type = "decision+rationale" →
      item.misconceptions = some ({ id := mid, detector := some d } :: rest) →
      d r = .error er →
      evaluate item r = evaluate { item with misconceptions := some rest } r) := by
  constructor
  · intro item r hrt
    unfold evaluate
    rw [if_pos hrt]
    dsimp only
    by_cases hc : (!(r.choice == item.answer_key.correct)
        && item.misconceptions.isSome) = true
    · rw [if_pos hc]; exact ⟨_, rfl⟩
    · rw [if_neg hc]; exact ⟨_, rfl⟩
  · intro item r mid d rest er hrt hmis hthrow
    have hdet : runDetectorCaught r { id := mid, detector := some d } = false := by
      unfold runDetectorCaught
      dsimp only
      rw [hthrow]
    have hrt' : ({ item with misconceptions := some rest } : Item).response_type
        = "decision+rationale" := hrt
    unfold evaluate
    rw [if_pos hrt, if_pos hrt']
    dsimp only
    rw [hmis]
    simp only [Option.isSome_some, Bool.and_true, Option.getD_some]
    rw [List.find?_cons_of_neg _ (by simp [hdet])]

/-- C4 amended, witness at concrete inputs. -/
theorem claim_C4_amended_witness :
    (∃ res, evaluate itemA { choice := some "x" } = .ok res) ∧
    evaluate itemD { choice := some "x" }
      = evaluate { itemD with misconceptions := some [] } { choice := some "x" } := by
  constructor
  · exact claim_C4_amended.1 itemA { choice := some "x" } rfl
  · exact claim_C4_amended.2 itemD { choice := some "x" } "m"
      (fun _ => .error ()) [] () rfl rfl rfl

/-- C5 counterexample: in `traceForce`, the final forceNext Submit leaves
item B current with `itemMastered` carried over and no Submit of its own
on that instance (the index moved 0 → 1 at that Submit, so a new instance
began); the following Advance then changes `currentItemIndex` from 1 to 0
while the history is untouched — an advance with no correct (indeed no)
Submit on the current item instance. -/
theorem claim_C5_counterexample :
    (run bankAB 0 (traceForce.take 4)).currentIndex = 0 ∧
    (run bankAB 0 traceForce).currentIndex = 1 ∧
    (run bankAB 0 traceForce).currentItemMastered = true ∧
    (run bankAB 0 (traceForce ++ [.next 0 0])).history
      = (run bankAB 0 traceForce).history ∧
    (run bankAB 0 (traceForce ++ [.next 0 0])).currentIndex = 0 := by
  refine ⟨by decide, by decide, by decide, by decide, by decide⟩

/-- C5 amended: an Advance while `itemMastered` is false is rejected with
no state change, and an Advance changes `currentItemIndex` only when
`itemMastered` is true — but `itemMastered` can be carried into a fresh
instance by a forceNext Submit on the previous item, so the gate is
`itemMastered`, not "a correct Submit occurred on this instance". -/
theorem claim_C5_amended :
    (∀ (items : List Item) (s : SessionState) (t rng : Nat),
      s.currentItemMastered = false → handleNext items s t rng = s) ∧
    (∀ (items : List Item) (s : SessionState) (t rng : Nat),
      (handleNext items s t rng).currentIndex ≠ s.currentIndex →
      s.currentItemMastered = true) := by
  constructor
  · intro items s t rng hm
    exact handleNext_guard t rng hm
  · intro items s t rng hne
    cases hval : s.currentItemMastered with
    | true => rfl
    | false =>
      rw [handleNext_guard t rng hval] at hne
      exact absurd rfl hne

/-- C5 amended, witness at concrete inputs. -/
theorem claim_C5_amended_witness :
    handleNext bankAB (initState bankAB 0) 0 0 = initState bankAB 0 ∧
    (run bankAB 0 traceForce).currentItemMastered = true := by
  constructor
  · exact claim_C5_amended.1 bankAB (initState bankAB 0) 0 0 rfl
  · exact claim_C5_amended.2 bankAB (run bankAB 0 traceForce) 0 0 (by decide)

/-- C6: (1) whenever some item is unseen, `chooseNextIndex` returns the
lowest index with seen count 0; (2) coverage-first over traces: along any
event sequence from the initial state, whenever a handler presents an
index that was presented before, every item index has already been
presented. -/
theorem claim_C6 :
    (∀ (items : List Item) (seen inc : List Nat) (hist : List HistoryEntry)
        (rng : Nat) (lc : Bool), 0 ∈ seen →
      ∃ j, chooseNextIndex items seen inc hist rng lc = some j ∧
        seen.get? j = some 0 ∧ ∀ k < j, ∀ b, seen.get? k = some b → b ≠ 0) ∧
    (∀ (items : List Item) (startMs : Nat) (evs : List Event) (e : Event) (j : Nat),
      0 < items.length →
      (step items (run items startMs evs) e).presented
        = (run items startMs evs).presented ++ [j] →
      j ∈ (run items startMs evs).presented →
      ∀ i < items.length, i ∈ (run items startMs evs).presented) := by
  constructor
  · intro items seen inc hist rng lc h0
    exact chooseNextIndex_sequential h0
  · intro items startMs evs e j hlen happ hmem
    exact repeat_implies_covered (inv_run startMs evs hlen) happ hmem

/-- C6 witness: part 1 at seen counts `[1, 0]`; part 2 at the repeat
trace, whose 8th event re-presents item 0 after full coverage. -/
theorem claim_C6_witness :
    (∃ j, chooseNextIndex bankAB [1, 0] [] [] 0 false = some j ∧
      ([1, 0] : List Nat).get? j = some 0 ∧
      ∀ k < j, ∀ b, ([1, 0] : List Nat).get? k = some b → b ≠ 0) ∧
    (∀ i < bankAB.length, i ∈ (run bankAB 0 traceRepeat).presented) := by
  constructor
  · exact claim_C6.1 bankAB [1, 0] [] [] 0 false (by decide)
  · exact claim_C6.2 bankAB 0 traceRepeat (.next 0 0) 0 (by decide) (by decide) (by decide)

/-- C7: with full coverage and a non-empty incorrect set,
`chooseNextIndex` returns a member of the incorrect set; candidates whose
item id occurs in the last 3 history entries are excluded unless that
exclusion would empty the candidate set (then the full incorrect set is
used), and among the candidates a least-seen one is chosen. -/
theorem claim_C7 :
    ∀ (items : List Item) (seen inc : List Nat) (hist : List HistoryEntry)
      (rng : Nat) (lc : Bool),
      (∀ c ∈ seen, 0 < c) → inc ≠ [] →
      ∃ j, chooseNextIndex items seen inc hist rng lc = some j ∧
        j ∈ inc ∧
        j ∈ remediationCandidates items inc hist ∧
        (inc.filter (fun idx => !((recentIds hist).contains (itemIdAt items idx))) ≠ [] →
          remediationCandidates items inc hist
            = inc.filter (fun idx => !((recentIds hist).contains (itemIdAt items idx)))) ∧
        (inc.filter (fun idx => !((recentIds hist).contains (itemIdAt items idx))) = [] →
          remediationCandidates items inc hist = inc) ∧
        ∀ k ∈ remediationCandidates items inc hist,
          seen.getD j 0 ≤ seen.getD k 0 := by
  intro items seen inc hist rng lc hall hne
  obtain ⟨j, hj, hmem, hmin⟩ := chooseNextIndex_remediation hall hne
  refine ⟨j, hj, remediationCandidates_subset items inc hist hmem, hmem, ?_, ?_, hmin⟩
  · intro hfne
    simp only [remediationCandidates]
    rw [if_pos (List.length_pos.mpr hfne)]
  · intro hfe
    simp only [remediationCandidates]
    rw [hfe]
    simp

/-- C7 witness: the remediation pick after the forceNext scenario — all
items seen, item 0 incorrect, its id recent, so the exclusion is waived
and item 0 is chosen. -/
theorem claim_C7_witness :
    ∃ j, chooseNextIndex bankAB [2, 1] [0]
        [histA, { histA with item_id := "B" }, histA] 0 false = some j ∧
      j ∈ [0] ∧
      j ∈ remediationCandidates bankAB [0] [histA, { histA with item_id := "B" }, histA] ∧
      (([0] : List Nat).filter (fun idx => !((recentIds [histA, { histA with item_id := "B" },
          histA]).contains (itemIdAt bankAB idx))) ≠ [] →
        remediationCandidates bankAB [0] [histA, { histA with item_id := "B" }, histA]
          = ([0] : List Nat).filter (fun idx => !((recentIds [histA,
              { histA with item_id := "B" }, histA]).contains (itemIdAt bankAB idx)))) ∧
      (([0] : List Nat).filter (fun idx => !((recentIds [histA, { histA with item_id := "B" },
          histA]).contains (itemIdAt bankAB idx))) = [] →
        remediationCandidates bankAB [0] [histA, { histA with item_id := "B" }, histA] = [0]) ∧
      ∀ k ∈ remediationCandidates bankAB [0] [histA, { histA with item_id := "B" }, histA],
        ([2, 1] : List Nat).getD j 0 ≤ ([2, 1] : List Nat).getD k 0 := by
  exact claim_C7 bankAB [2, 1] [0] [histA, { histA with item_id := "B" }, histA] 0 false
    (by decide) (by decide)

/-- C8 counterexample: a response carrying only a Sequencer `order` field
— missing the decision mechanic's required `choice` field, so invalid for
the current item's mechanic — passes the Submit guard on a decision item:
evaluation proceeds (scoring it incorrect), an AttemptRecord is appended,
`seenCounts`, `incorrectItems` and `currentItemRetries` are all mutated,
and an attempt telemetry event is emitted — the converse of every clause
of the claimed rejection. -/
theorem claim_C8_counterexample :
    itemA.response_type = "decision+rationale" ∧
    respOrd.choice = none ∧ respOrd.order ≠ none ∧
    evaluate itemA respOrd = .ok { correct := false } ∧
    (handleSubmit bankA (initState bankA 0) respOrd 5 0).history
      = [{ item_id := "A", correct := false, latency_ms := 5, hints_used := 0 }] ∧
    (handleSubmit bankA (initState bankA 0) respOrd 5 0).seenCounts = [1] ∧
    (handleSubmit bankA (initState bankA 0) respOrd 5 0).incorrectItems = [0] ∧
    (handleSubmit bankA (initState bankA 0) respOrd 5 0).currentItemRetries = 1 ∧
    (handleSubmit bankA (initState bankA 0) respOrd 5 0).telemetry
      = [.attempt "A" false none] := by
  refine ⟨rfl, rfl, by decide, rfl, by decide, by decide, by decide, by decide, by decide⟩

/-- C8 amended: the Submit guard is mechanic-independent: it rejects (no
state change, no telemetry) exactly the responses carrying none of
`choice`/`order`/`pairs`/`bins`; any response with at least one of those
fields passes the guard and, if evaluation returns, an attempt record and
an attempt telemetry event are appended. -/
theorem claim_C8_amended :
    (∀ (items : List Item) (s : SessionState) (r : Response) (t rng : Nat),
      r.choice = none → r.order = none → r.pairs = none → r.bins = none →
      handleSubmit items s r t rng = s) ∧
    (∀ (items : List Item) (s : SessionState) (r : Response) (t rng : Nat)
        (res : EvalResult),
      evaluate (itemAt items s.currentIndex) r = .ok res →
      ¬(r.choice = none ∧ r.order = none ∧ r.pairs = none ∧ r.bins = none) →
      ∃ entry tev, (handleSubmit items s r t rng).history = s.history ++ [entry] ∧
        (handleSubmit items s r t rng).telemetry = s.telemetry ++ [tev]) := by
  constructor
  · intro items s r t rng h1 h2 h3 h4
    unfold handleSubmit
    rw [if_pos (by simp [h1, h2, h3, h4])]
  · intro items s r t rng res heval hguard
    obtain ⟨hh, ht⟩ := handleSubmit_appends heval hguard
    exact ⟨_, _, hh, ht⟩

/-- C8 amended, witness at concrete inputs. -/
theorem claim_C8_amended_witness :
    handleSubmit bankA (initState bankA 0) {} 0 0 = initState bankA 0 ∧
    (∃ entry tev, (handleSubmit bankA (initState bankA 0) respOrd 5 0).history
        = (initState bankA 0).history ++ [entry] ∧
      (handleSubmit bankA (initState bankA 0) respOrd 5 0).telemetry
        = (initState bankA 0).telemetry ++ [tev]) := by
  constructor
  · exact claim_C8_amended.1 bankA (initState bankA 0) {} 0 0 rfl rfl rfl rfl
  · exact claim_C8_amended.2 bankA (initState bankA 0) respOrd 5 0
      { correct := false } rfl (by simp [respOrd])

/-- C9: the mastery statistics satisfy the spec formulas: the streak is
the length of the trailing run of correct attempts, total hints is the sum
of `hints_used`, the empty history yields the all-zero non-mastered
record, and for non-empty histories `masteryMet` holds iff streak ≥ 3, the
exact arithmetic mean of the latencies is ≤ 30000 ms and total hints ≤ 1;
the reported average-time field is that mean rounded via `msToS`. -/
theorem claim_C9 :
    ∀ h : List HistoryEntry,
      (computeMastery h).streak = (h.reverse.takeWhile (fun e => e.correct)).length ∧
      (computeMastery h).hints = (h.map (fun e => e.hints_used)).sum ∧
      (h = [] → computeMastery h
        = { streak := 0, avgTimeS := 0, hints := 0, masteryMet := false }) ∧
      (h ≠ [] →
        ((computeMastery h).masteryMet = true ↔
          3 ≤ (h.reverse.takeWhile (fun e => e.correct)).length ∧
          (h.map (fun e => (e.latency_ms : ℚ))).sum / (h.length : ℚ) ≤ 30000 ∧
          (h.map (fun e => e.hints_used)).sum ≤ 1) ∧
        (computeMastery h).avgTimeS
          = msToS ((h.map (fun e => (e.latency_ms : ℚ))).sum / (h.length : ℚ))) := by
  intro h
  by_cases hnil : h = []
  · subst hnil
    exact ⟨rfl, rfl, fun _ => rfl, fun hc => absurd rfl hc⟩
  · have hlen : ¬(h.length = 0) := by
      simpa [List.length_eq_zero] using hnil
    refine ⟨?_, ?_, fun he => absurd he hnil, fun _ => ⟨?_, ?_⟩⟩
    · unfold computeMastery
      rw [if_neg hlen]
      exact streakAux_eq_takeWhile h.reverse
    · unfold computeMastery
      rw [if_neg hlen]
    · unfold computeMastery
      rw [if_neg hlen]
      dsimp only
      simp only [Bool.and_eq_true, decide_eq_true_eq, masteryConfig,
        streakAux_eq_takeWhile]
      constructor
      · rintro ⟨⟨h1, h2⟩, h3⟩
        exact ⟨h1, h2, h3⟩
      · rintro ⟨h1, h2, h3⟩
        exact ⟨⟨h1, h2⟩, h3⟩
    · unfold computeMastery
      rw [if_neg hlen]

/-- C9 witness: the spec's mastery-arithmetic scenario (three correct
attempts at 1000/2000/3000 ms, no hints). -/
theorem claim_C9_witness :
    histMastery ≠ [] ∧
    ((computeMastery histMastery).masteryMet = true ↔
      3 ≤ (histMastery.reverse.takeWhile (fun e => e.correct)).length ∧
      (histMastery.map (fun e => (e.latency_ms : ℚ))).sum / (histMastery.length : ℚ) ≤ 30000 ∧
      (histMastery.map (fun e => e.hints_used)).sum ≤ 1) := by
  exact ⟨by decide, ((claim_C9 histMastery).2.2.2 (by decide)).1⟩

/-- C10: the evaluation outcome recorded by a Submit is a function of the
current item and the response alone — two Submits of the same response on
the same item, from arbitrary (possibly different) session states, clocks
and random draws, append attempt records with the same correctness flag
and the same misconception id, both equal to `evaluate`'s pure result. -/
theorem claim_C10 :
    ∀ (itemsA itemsB : List Item) (sA sB : SessionState) (r : Response)
      (tA tB rngA rngB : Nat) (res : EvalResult),
      itemAt itemsA sA.currentIndex = itemAt itemsB sB.currentIndex →
      evaluate (itemAt itemsA sA.currentIndex) r = .ok res →
      ¬(r.choice = none ∧ r.order = none ∧ r.pairs = none ∧ r.bins = none) →
      ∃ eA eB, (handleSubmit itemsA sA r tA rngA).history = sA.history ++ [eA] ∧
        (handleSubmit itemsB sB r tB rngB).history = sB.history ++ [eB] ∧
        eA.correct = res.correct ∧ eB.correct = res.correct ∧
        eA.misconception_id = res.misconception_id ∧
        eB.misconception_id = res.misconception_id := by
  intro itemsA itemsB sA sB r tA tB rngA rngB res hitem heval hguard
  obtain ⟨hhA, -⟩ := @handleSubmit_appends itemsA sA r tA rngA res heval hguard
  have hevalB : evaluate (itemAt itemsB sB.currentIndex) r = .ok res := by
    rw [← hitem]
    exact heval
  obtain ⟨hhB, -⟩ := @handleSubmit_appends itemsB sB r tB rngB res hevalB hguard
  exact ⟨_, _, hhA, hhB, rfl, rfl, rfl, rfl⟩

/-- C10 witness: the same correct decision response submitted on the same
item from two different session states (different banks, histories, seen
counts, clocks and random draws) records the same verdict. -/
theorem claim_C10_witness :
    ∃ eA eB, (handleSubmit bankA (initState bankA 0) { choice := some "a" } 3 0).history
        = (initState bankA 0).history ++ [eA] ∧
      (handleSubmit bankAB sOnceEach { choice := some "a" } 7 1).history
        = sOnceEach.history ++ [eB] ∧
      eA.correct = true ∧ eB.correct = true ∧
      eA.misconception_id = none ∧ eB.misconception_id = none := by
  exact claim_C10 bankA bankAB (initState bankA 0) sOnceEach { choice := some "a" }
    3 7 0 1 { correct := true } rfl rfl (by simp)

end IoTLab
